import Mathlib

/-!
Shallow embedding of the Document-Scanner-OCR backend (src/backend/app.py).

Strings are modelled as lists of characters. Python string helpers
(str.replace, str.strip, os.path.join, the re.split used for diagram
markers) are embedded as executable functions below. External effects
(HTTP transport, the filesystem, the subprocess runner, the document
writer) are modelled by explicit environments, so every repository
function becomes a total Lean function of its inputs and environment.
-/

namespace OCR

/-- Boolean prefix test on character lists. -/
def isPre : List Char → List Char → Bool
  | [], _ => true
  | _ :: _, [] => false
  | a :: as, b :: bs => a == b && isPre as bs

/-- Split a string at the first occurrence of a pattern: returns the part
before the occurrence and the part after it, or none when the pattern
does not occur.  This is the primitive behind both the regex split on
diagram markers and the Python str.replace used by the code rewrites. -/
def splitFirst (pat : List Char) : List Char → Option (List Char × List Char)
  | [] => none
  | c :: rest =>
    if isPre pat (c :: rest) then some ([], (c :: rest).drop pat.length)
    else
      match splitFirst pat rest with
      | some (b, a) => some (c :: b, a)
      | none => none

/-- Substring containment test (the Python `in` operator on strings). -/
def containsSub (pat s : List Char) : Bool :=
  (splitFirst pat s).isSome

/-- Fuel-driven body of replaceAll; the fuel only serves termination and
is always supplied large enough to be irrelevant. -/
def replaceAllF : Nat → List Char → List Char → List Char → List Char
  | 0, _, _, s => s
  | fuel + 1, pat, rep, s =>
    match splitFirst pat s with
    | none => s
    | some (b, a) => b ++ rep ++ replaceAllF fuel pat rep a

/-- Python str.replace: replace every non-overlapping occurrence of a
nonempty pattern, scanning left to right. -/
def replaceAll (pat rep s : List Char) : List Char :=
  replaceAllF (s.length + 1) pat rep s

/-- Python str.strip (whitespace on both ends). -/
def pyStrip (s : List Char) : List Char :=
  ((s.dropWhile Char.isWhitespace).reverse.dropWhile Char.isWhitespace).reverse

/-- Python os.path.join for a POSIX host, restricted to two components. -/
def pyJoin (a b : List Char) : List Char :=
  if b.head? = some '/' then b
  else if a = [] then b
  else if a.getLast? = some '/' then a ++ b
  else a ++ '/' :: b

/-- The start marker of a diagram code block in the oracle response. -/
def startM : List Char := "[[DIAGRAM_CODE_START]]".data

/-- The end marker of a diagram code block in the oracle response. -/
def endM : List Char := "[[DIAGRAM_CODE_END]]".data

/-- Fuel-driven body of splitDiagrams. -/
def splitDiagramsF : Nat → List Char → List (List Char)
  | 0, s => [s]
  | fuel + 1, s =>
    match splitFirst startM s with
    | none => [s]
    | some (pre, rest) =>
      match splitFirst endM rest with
      | none => [s]
      | some (code, rest2) => pre :: code :: splitDiagramsF fuel rest2

/-- The re.split of processImageToDoc on the marker pair regex
(DOTALL, lazy inner match, one capture group): the result alternates
prose parts at even positions with captured diagram code at odd
positions.  A start marker with no later end marker does not match and
stays inside the surrounding prose part, exactly as for the regex. -/
def splitDiagrams (s : List Char) : List (List Char) :=
  splitDiagramsF (s.length + 1) s

/-- The inline sanitization of processImageToDoc: keep only alphanumeric
characters and underscores.  Python c.isalnum() is modelled by
Char.isAlphanum. -/
def sanitize (s : List Char) : List Char :=
  s.filter (fun c => c.isAlphanum || c == '_')

/-! ## ModelClient: getGeminiModel and getGeminiResponse -/

/-- One entry of the provider model catalog: the name field and the
supportedGenerationMethods field of the JSON object. -/
structure ModelInfo where
  name : List Char
  methods : List (List Char)
deriving DecidableEq

/-- Outcome of the GET on the model catalog: a raised transport error,
or an HTTP status together with the decoded models list. -/
inductive CatalogResult where
  | err : CatalogResult
  | ok : Nat → List ModelInfo → CatalogResult
deriving DecidableEq

/-- The hardcoded default model identifier of getGeminiModel. -/
def defaultModel : List Char := "gemini-1.5-flash-latest".data

/-- The stripped identifier of a catalog entry:
model[name].replace(models/, empty). -/
def stripName (mi : ModelInfo) : List Char :=
  replaceAll "models/".data [] mi.name

/-- The for-loop of getGeminiModel, carrying the mutable modelName:
for each catalog entry supporting generateContent, the models/ prefix
is stripped from the name; a name containing flash is returned at once,
a name containing pro replaces the carried modelName. -/
def getGeminiModelLoop : List ModelInfo → List Char → List Char
  | [], m => m
  | mi :: rest, m =>
    if "generateContent".data ∈ mi.methods then
      let name := stripName mi
      if containsSub "flash".data name then name
      else if containsSub "pro".data name then getGeminiModelLoop rest name
      else getGeminiModelLoop rest m
    else getGeminiModelLoop rest m

/-- getGeminiModel of app.py, as a function of the catalog call outcome:
on a transport error or a non-200 status the hardcoded default is
returned, otherwise the loop above scans the catalog. -/
def getGeminiModel (res : CatalogResult) : List Char :=
  match res with
  | .err => defaultModel
  | .ok status models =>
    if status == 200 then getGeminiModelLoop models defaultModel
    else defaultModel

/-- A JSON value, as decoded by response.json(). -/
inductive Json where
  | str : List Char → Json
  | num : Int → Json
  | bool : Bool → Json
  | null : Json
  | arr : List Json → Json
  | obj : List (List Char × Json) → Json

/-- Dictionary lookup result[k]; none when the value is not an object or
the key is absent (a Python KeyError or TypeError, caught by the
enclosing handler). -/
def jGet (j : Json) (k : List Char) : Option Json :=
  match j with
  | .obj fs => (fs.find? (fun f => f.1 == k)).map (fun f => f.2)
  | _ => none

/-- List indexing result[i]; none when the value is not an array or the
index is out of range. -/
def jIdx (j : Json) (i : Nat) : Option Json :=
  match j with
  | .arr xs => xs.get? i
  | _ => none

/-- Outcome of the POST to the generation endpoint. -/
inductive HttpOutcome where
  | transportErr : HttpOutcome
  | resp : Nat → Json → HttpOutcome

/-- getGeminiResponse of app.py as a function of the POST outcome: none
on a raised transport error or a non-200 status; with a 200 body, the
code requires a candidates key holding a truthy value and then extracts
candidates[0].content.parts[0].text, every failure along that path
raising and being caught as none.  A truthy non-array candidates value
also ends in a caught TypeError, hence none. -/
def getGeminiResponse (o : HttpOutcome) : Option Json :=
  match o with
  | .transportErr => none
  | .resp status body =>
    if status == 200 then
      match jGet body "candidates".data with
      | some (Json.arr (c0 :: _)) =>
        (jGet c0 "content".data).bind fun content =>
          (jGet content "parts".data).bind fun parts =>
            (jIdx parts 0).bind fun p0 =>
              jGet p0 "text".data
      | _ => none
    else none

/-! ## DiagramSandbox: executeDiagramCode -/

/-- Outcome of subprocess.run on the generated script: completion with
an exit code, expiry of the 30 second timeout (a raised
TimeoutExpired), or any other raised exception. -/
inductive RunResult where
  | completed : Int → RunResult
  | timedOut : RunResult
  | raised : RunResult
deriving DecidableEq

/-- The operating-system environment of one conversion request: whether
writing a given script file raises, the outcome of running a script
(keyed by its path and contents), the file-existence predicate after
the run, and whether doc.add_picture succeeds on a given image path. -/
structure OSEnv where
  writeRaises : List Char → Bool
  run : List Char → List Char → RunResult
  existsFile : List Char → Bool
  embedOk : List Char → Bool

/-- The script path diagram_{uniqueId}.py inside the working directory. -/
def scriptPathOf (workDir uniqueId : List Char) : List Char :=
  pyJoin workDir ("diagram_".data ++ uniqueId ++ ".py".data)

/-- The image output path diagram_{uniqueId}.png inside the working
directory. -/
def imagePathOf (workDir uniqueId : List Char) : List Char :=
  pyJoin workDir ("diagram_".data ++ uniqueId ++ ".png".data)

/-- The forward-slash-normalized image path substituted into the code. -/
def escapedPathOf (workDir uniqueId : List Char) : List Char :=
  replaceAll "\\".data "/".data (imagePathOf workDir uniqueId)

/-- The code rewriting of executeDiagramCode, line for line: substitute
the hardcoded output filename by the escaped image path, rewrite the
LaTeX macro, then rewrite the six axis-limit shorthands. -/
def rewrittenCode (code uniqueId workDir : List Char) : List Char :=
  let escapedPath := escapedPathOf workDir uniqueId
  let m0 := replaceAll "generated_diagram.png".data escapedPath code
  let m1 := replaceAll "\\implies".data "\\Rightarrow".data m0
  let m2 := replaceAll "ax.xlim(".data "ax.set_xlim(".data m1
  let m3 := replaceAll "ax.ylim(".data "ax.set_ylim(".data m2
  let m4 := replaceAll "ax_linear.xlim(".data "ax_linear.set_xlim(".data m3
  let m5 := replaceAll "ax_linear.ylim(".data "ax_linear.set_ylim(".data m4
  let m6 := replaceAll "ax_log.xlim(".data "ax_log.set_xlim(".data m5
  let m7 := replaceAll "ax_log.ylim(".data "ax_log.set_ylim(".data m6
  m7

/-- executeDiagramCode of app.py: rewrite the code, write it to the
script path (a raised write error is caught as none), run it
(a timeout or other raised exception is caught as none), and return the
image path exactly when the exit code is zero and the output file
exists afterwards. -/
def executeDiagramCode (env : OSEnv) (code uniqueId workDir : List Char) :
    Option (List Char) :=
  let scriptPath := scriptPathOf workDir uniqueId
  let imageOutputPath := imagePathOf workDir uniqueId
  let modifiedCode := rewrittenCode code uniqueId workDir
  if env.writeRaises scriptPath then none
  else
    match env.run scriptPath modifiedCode with
    | .completed rc =>
      if rc == 0 && env.existsFile imageOutputPath then some imageOutputPath
      else none
    | .timedOut => none
    | .raised => none

/-! ## ResponseSegmenter and DocumentAssembler: processImageToDoc -/

/-- One unit of the parsed response, per the data model of the spec. -/
inductive Segment where
  | Prose : List Char → Segment
  | DiagramSource : List Char → Segment
deriving DecidableEq

/-- Typed segments from the alternating parts list of the regex split:
even positions are prose (dropped when whitespace-only), odd positions
are diagram source (always kept). -/
def segsOfParts : Nat → List (List Char) → List Segment
  | _, [] => []
  | i, part :: rest =>
    if i % 2 == 0 then
      (if pyStrip part ≠ [] then [Segment.Prose part] else []) ++
        segsOfParts (i + 1) rest
    else
      Segment.DiagramSource part :: segsOfParts (i + 1) rest

/-- The ResponseSegmenter of the spec, read off the regex split and the
loop parity of processImageToDoc. -/
def segment (raw : List Char) : List Segment :=
  segsOfParts 0 (splitDiagrams raw)

/-- One element of the assembled document. -/
inductive DocElem where
  | Heading : List Char → Nat → DocElem
  | Para : List Char → DocElem
  | Picture : List Char → Nat → DocElem
  | PageBreak : DocElem
deriving DecidableEq

/-- The placeholder paragraph for an embedding failure. -/
def imageErrorText : List Char :=
  "[Diagram Generation Failed - Image Error]".data

/-- The placeholder paragraph for a render failure. -/
def failedText : List Char := "[Diagram Generation Failed]".data

/-- The fence stripping applied to a diagram part before execution. -/
def codeBlockOf (part : List Char) : List Char :=
  replaceAll "```".data [] (replaceAll "```python".data [] (pyStrip part))

/-- The sanitized unique identifier of the counter-th diagram of a
source file name. -/
def uniqueIdOf (filename : List Char) (counter : Nat) : List Char :=
  sanitize (filename ++ "_".data ++ (Nat.repr counter).data)

/-- The for-loop of processImageToDoc over the parts of the regex
split, with the enumerate index i and the diagram counter: even parts
append their stripped text as a paragraph when it is nonempty; odd
parts are stripped of fences, rendered via executeDiagramCode, and
yield an embedded picture of width 5 inches, or the image-error
placeholder when add_picture raises, or the failure placeholder when no
usable image path came back. -/
def processParts (env : OSEnv) (filename workDir : List Char) :
    Nat → Nat → List (List Char) → List DocElem
  | _, _, [] => []
  | counter, i, part :: rest =>
    if i % 2 == 0 then
      (if pyStrip part ≠ [] then [DocElem.Para (pyStrip part)] else []) ++
        processParts env filename workDir counter (i + 1) rest
    else
      let codeBlock := codeBlockOf part
      let uniqueId := uniqueIdOf filename counter
      let imgPath := executeDiagramCode env codeBlock uniqueId workDir
      (match imgPath with
       | some p =>
         if p ≠ [] && env.existsFile p then
           if env.embedOk p then [DocElem.Picture p 5]
           else [DocElem.Para imageErrorText]
         else [DocElem.Para failedText]
       | none => [DocElem.Para failedText]) ++
        processParts env filename workDir (counter + 1) (i + 1) rest

/-- processImageToDoc of app.py, as a function of the oracle response
(the return value of getGeminiResponse, already decoded to text): a
falsy response (absent or empty) returns False with the document
untouched; otherwise a heading is appended, the parts of the regex
split are processed in order, and a page break closes the section. -/
def processImageToDoc (env : OSEnv) (responseText : Option (List Char))
    (filename : List Char) (doc : List DocElem) (workDir : List Char) :
    Bool × List DocElem :=
  match responseText with
  | none => (false, doc)
  | some t =>
    if t = [] then (false, doc)
    else
      let parts := splitDiagrams t
      (true,
        doc ++ [DocElem.Heading ("Source: ".data ++ filename) 1] ++
          processParts env filename workDir 0 0 parts ++ [DocElem.PageBreak])

/-! ## Spec-side definitions, for comparison with the embedded code -/

/-- Modelled from the spec: the compatibility rewrite table of the
DiagramSandbox, an explicit list of pattern and replacement pairs, in
the order the code applies them. -/
def rewriteTable : List (List Char × List Char) :=
  [("\\implies".data, "\\Rightarrow".data),
   ("ax.xlim(".data, "ax.set_xlim(".data),
   ("ax.ylim(".data, "ax.set_ylim(".data),
   ("ax_linear.xlim(".data, "ax_linear.set_xlim(".data),
   ("ax_linear.ylim(".data, "ax_linear.set_ylim(".data),
   ("ax_log.xlim(".data, "ax_log.set_xlim(".data),
   ("ax_log.ylim(".data, "ax_log.set_ylim(".data)]

/-- Apply a rewrite table entry by entry, each one as a global string
replacement. -/
def applyTable (t : List (List Char × List Char)) (s : List Char) : List Char :=
  t.foldl (fun acc pr => replaceAll pr.1 pr.2 acc) s

/-- Whether a catalog entry supports content generation. -/
def genOK (mi : ModelInfo) : Bool :=
  decide ("generateContent".data ∈ mi.methods)

/-- Whether the stripped identifier of an entry contains flash. -/
def isFlashB (mi : ModelInfo) : Bool :=
  containsSub "flash".data (stripName mi)

/-- Whether the stripped identifier of an entry contains pro. -/
def isProB (mi : ModelInfo) : Bool :=
  containsSub "pro".data (stripName mi)

/-- Modelled from the spec: the scan order of model selection over a
catalog, with fallback m: the first generation-supporting entry whose
identifier contains flash; if none, the last generation-supporting
entry whose identifier contains pro; else m. -/
def specScan (models : List ModelInfo) (m : List Char) : List Char :=
  match (models.filter genOK).find? isFlashB with
  | some mi => stripName mi
  | none =>
    match ((models.filter genOK).filter isProB).getLast? with
    | some mi => stripName mi
    | none => m

/-- Modelled from the spec: the model-selection preference order; on a
failed catalog call or a non-200 status the hardcoded default. -/
def specSelect (res : CatalogResult) : List Char :=
  match res with
  | .err => defaultModel
  | .ok status models =>
    if status == 200 then specScan models defaultModel
    else defaultModel

/-- A response body holds a generated-content candidate with text v
when the path candidates[0].content.parts[0].text leads to v. -/
def HasCandidateText (body v : Json) : Prop :=
  ∃ c0 rest content parts p0,
    jGet body "candidates".data = some (Json.arr (c0 :: rest)) ∧
    jGet c0 "content".data = some content ∧
    jGet content "parts".data = some parts ∧
    jIdx parts 0 = some p0 ∧
    jGet p0 "text".data = some v

/-- The document elements contributed by one diagram part: the loop
body of processImageToDoc for an odd part, factored out. -/
def diagChunk (env : OSEnv) (filename workDir : List Char) (counter : Nat)
    (part : List Char) : List DocElem :=
  match executeDiagramCode env (codeBlockOf part) (uniqueIdOf filename counter) workDir with
  | some p =>
    if p ≠ [] && env.existsFile p then
      if env.embedOk p then [DocElem.Picture p 5]
      else [DocElem.Para imageErrorText]
    else [DocElem.Para failedText]
  | none => [DocElem.Para failedText]

/-- The document elements contributed by one prose part. -/
def proseChunk (part : List Char) : List DocElem :=
  if pyStrip part ≠ [] then [DocElem.Para (pyStrip part)] else []

/-- The per-part decomposition of the assembler loop: one chunk of
document elements for every part, in order. -/
def chunksOf (env : OSEnv) (filename workDir : List Char) :
    Nat → Nat → List (List Char) → List (List DocElem)
  | _, _, [] => []
  | counter, i, part :: rest =>
    if i % 2 == 0 then
      proseChunk part :: chunksOf env filename workDir counter (i + 1) rest
    else
      diagChunk env filename workDir counter part ::
        chunksOf env filename workDir (counter + 1) (i + 1) rest

/-- A response text assembled from prose and diagram chunks: the prose
before the first pair, then for each pair its code between the markers
followed by the prose after it. -/
def interleave (p0 : List Char) : List (List Char × List Char) → List Char
  | [] => p0
  | (c, p) :: rest => p0 ++ startM ++ c ++ endM ++ interleave p rest

/-- Well-formedness of the chunks: no prose chunk reaches a start
marker earlier than the adjacent one, no code chunk reaches an end
marker earlier than the closing one, and the trailing prose holds no
start marker. -/
def chunksOK : List Char → List (List Char × List Char) → Bool
  | p0, [] => (splitFirst startM p0).isNone
  | p0, (c, p) :: rest =>
    decide (splitFirst startM (p0 ++ startM) = some (p0, [])) &&
      decide (splitFirst endM (c ++ endM) = some (c, [])) &&
      chunksOK p rest

/-- The parts list the regex split is expected to produce on an
interleaved text. -/
def partsOf (p0 : List Char) : List (List Char × List Char) → List (List Char)
  | [] => [p0]
  | (c, p) :: rest => p0 :: c :: partsOf p rest

/-- The segments the segmentation is expected to produce on an
interleaved text: whitespace-only prose dropped, diagrams always kept,
order preserved. -/
def expectedSegs (p0 : List Char) : List (List Char × List Char) → List Segment
  | [] => if pyStrip p0 ≠ [] then [Segment.Prose p0] else []
  | (c, p) :: rest =>
    (if pyStrip p0 ≠ [] then [Segment.Prose p0] else []) ++
      Segment.DiagramSource c :: expectedSegs p rest

/-- Whether a segment is diagram source. -/
def isDiag : Segment → Bool
  | .DiagramSource _ => true
  | .Prose _ => false

/-- Whether a segment is prose. -/
def isProse : Segment → Bool
  | .DiagramSource _ => false
  | .Prose _ => true

/-- The parts at odd positions of an alternating parts list, starting
at enumerate index i. -/
def oddParts : Nat → List (List Char) → List (List Char)
  | _, [] => []
  | i, p :: rest =>
    if i % 2 == 0 then oddParts (i + 1) rest else p :: oddParts (i + 1) rest

/-- Number of plain paragraphs of a document. -/
def countPara (d : List DocElem) : Nat :=
  (d.filter fun e => match e with | .Para _ => true | _ => false).length

/-- Number of embedded pictures of a document. -/
def countPic (d : List DocElem) : Nat :=
  (d.filter fun e => match e with | .Picture _ _ => true | _ => false).length

/-- An environment in which every render and embed succeeds. -/
def envAllOk : OSEnv :=
  ⟨fun _ => false, fun _ _ => .completed 0, fun _ => true, fun _ => true⟩
/-- An environment whose script exits zero without writing a file. -/
def envNoFile : OSEnv :=
  ⟨fun _ => false, fun _ _ => .completed 0, fun _ => false, fun _ => true⟩

/-- An environment whose script fails while a stale file exists. -/
def envStale : OSEnv :=
  ⟨fun _ => false, fun _ _ => .completed 1, fun _ => true, fun _ => true⟩

/-- A well-formed 200 body with one candidate text. -/
def sampleBody : Json :=
  Json.obj [("candidates".data,
    Json.arr [Json.obj [("content".data,
      Json.obj [("parts".data,
        Json.arr [Json.obj [("text".data, Json.str "hi".data)]])])]])]


/-- The lines of a response text, split at newline characters. -/
def linesOf : List Char → List (List Char)
  | [] => [[]]
  | c :: rest =>
    match linesOf rest with
    | [] => [[c]]
    | l :: ls => if c = '\n' then [] :: l :: ls else (c :: l) :: ls

/-! ## Lemmas about the string primitives -/

lemma isPre_append (xs ys : List Char) : isPre xs (xs ++ ys) = true := by
  induction xs with
  | nil => rfl
  | cons a as ih => simp [isPre, ih]

lemma isPre_take (pat : List Char) :
    ∀ (s t : List Char), pat.length ≤ s.length → isPre pat (s ++ t) = isPre pat s := by
  induction pat with
  | nil => intro s t _; cases s <;> rfl
  | cons a as ih =>
    intro s t h
    cases s with
    | nil => simp at h
    | cons b bs =>
      simp only [List.cons_append, isPre, List.append_eq]
      rw [ih bs t (by simpa using h)]

lemma isPre_drop (pat : List Char) :
    ∀ (s : List Char), isPre pat s = true → s = pat ++ s.drop pat.length := by
  induction pat with
  | nil => intro s _; simp
  | cons a as ih =>
    intro s h
    cases s with
    | nil => simp [isPre] at h
    | cons b bs =>
      simp only [isPre, Bool.and_eq_true, beq_iff_eq] at h
      obtain ⟨rfl, h2⟩ := h
      simpa using ih bs h2

lemma splitFirst_eq_append {pat : List Char} :
    ∀ {s b a : List Char}, splitFirst pat s = some (b, a) → s = b ++ pat ++ a := by
  intro s
  induction s with
  | nil => intro b a h; simp [splitFirst] at h
  | cons c rest ih =>
    intro b a h
    rw [splitFirst] at h
    by_cases hp : isPre pat (c :: rest) = true
    · rw [if_pos hp] at h
      simp only [Option.some.injEq, Prod.mk.injEq] at h
      obtain ⟨rfl, rfl⟩ := h
      simpa using isPre_drop pat (c :: rest) hp
    · rw [if_neg hp] at h
      cases hrec : splitFirst pat rest with
      | none => rw [hrec] at h; simp at h
      | some ba =>
        obtain ⟨b', a'⟩ := ba
        rw [hrec] at h
        simp only [Option.some.injEq, Prod.mk.injEq] at h
        obtain ⟨rfl, rfl⟩ := h
        have := ih hrec
        simp [this]

lemma splitFirst_prepend {pat : List Char} :
    ∀ {x : List Char} (y : List Char), splitFirst pat (x ++ pat) = some (x, []) →
      splitFirst pat (x ++ pat ++ y) = some (x, y) := by
  intro x
  induction x with
  | nil =>
    intro y h
    cases pat with
    | nil => simp [splitFirst] at h
    | cons q qs =>
      simp only [List.nil_append] at h ⊢
      rw [List.cons_append, splitFirst, if_pos (by simpa using isPre_append (q :: qs) y)]
      simp
  | cons c x' ih =>
    intro y h
    simp only [List.cons_append] at h ⊢
    rw [splitFirst] at h
    by_cases hp : isPre pat (c :: (x' ++ pat)) = true
    · rw [if_pos hp] at h
      simp at h
    · rw [if_neg hp] at h
      have hrec : splitFirst pat (x' ++ pat) = some (x', []) := by
        cases hr : splitFirst pat (x' ++ pat) with
        | none => rw [hr] at h; simp at h
        | some ba =>
          obtain ⟨b', a'⟩ := ba
          rw [hr] at h
          simp only [Option.some.injEq, Prod.mk.injEq, List.cons.injEq, true_and] at h
          obtain ⟨h5, h6⟩ := h
          subst h5; subst h6
          rfl
      have hpy : isPre pat (c :: (x' ++ (pat ++ y))) = false := by
        have hassoc : c :: (x' ++ (pat ++ y)) = (c :: (x' ++ pat)) ++ y := by simp
        rw [hassoc, isPre_take pat (c :: (x' ++ pat)) y (by simp; omega)]
        exact Bool.not_eq_true _ ▸ hp
      rw [splitFirst, if_neg (by simp [hpy]), ih y hrec]

lemma splitDiagramsF_roundtrip :
    ∀ (prs : List (List Char × List Char)) (p0 : List Char) (fuel : Nat),
      prs.length < fuel → chunksOK p0 prs = true →
      splitDiagramsF fuel (interleave p0 prs) = partsOf p0 prs := by
  intro prs
  induction prs with
  | nil =>
    intro p0 fuel hfuel hok
    cases fuel with
    | zero => omega
    | succ f =>
      simp only [chunksOK, Option.isNone_iff_eq_none] at hok
      simp [interleave, splitDiagramsF, hok, partsOf]
  | cons cp rest ih =>
    intro p0 fuel hfuel hok
    obtain ⟨c, p⟩ := cp
    cases fuel with
    | zero => simp at hfuel
    | succ f =>
      simp only [chunksOK, Bool.and_eq_true, decide_eq_true_eq] at hok
      obtain ⟨⟨h1, h2⟩, h3⟩ := hok
      have e1 : interleave p0 ((c, p) :: rest) =
          p0 ++ startM ++ (c ++ endM ++ interleave p rest) := by
        simp [interleave]
      have s1 : splitFirst startM (p0 ++ startM ++ (c ++ endM ++ interleave p rest)) =
          some (p0, c ++ endM ++ interleave p rest) :=
        splitFirst_prepend _ h1
      have s2 : splitFirst endM (c ++ endM ++ interleave p rest) =
          some (c, interleave p rest) :=
        splitFirst_prepend _ h2
      have hlen : rest.length < f := by
        simp only [List.length_cons] at hfuel; omega
      rw [e1, splitDiagramsF, s1]
      simp only [s2, partsOf, ih p f hlen h3]

lemma interleave_length :
    ∀ (prs : List (List Char × List Char)) (p0 : List Char),
      prs.length ≤ (interleave p0 prs).length := by
  intro prs
  induction prs with
  | nil => intro p0; simp
  | cons cp rest ih =>
    intro p0
    obtain ⟨c, p⟩ := cp
    have hs : 1 ≤ startM.length := by decide
    have := ih p
    simp only [interleave, List.length_cons, List.length_append]
    omega

lemma splitDiagrams_roundtrip {p0 : List Char} {prs : List (List Char × List Char)}
    (hok : chunksOK p0 prs = true) :
    splitDiagrams (interleave p0 prs) = partsOf p0 prs := by
  have := interleave_length prs p0
  exact splitDiagramsF_roundtrip prs p0 ((interleave p0 prs).length + 1) (by omega) hok

lemma splitDiagrams_noMarker {t : List Char} (h : splitFirst startM t = none) :
    splitDiagrams t = [t] := by
  rw [splitDiagrams, splitDiagramsF, h]

lemma segsOfParts_partsOf :
    ∀ (prs : List (List Char × List Char)) (p0 : List Char) (i : Nat), i % 2 = 0 →
      segsOfParts i (partsOf p0 prs) = expectedSegs p0 prs := by
  intro prs
  induction prs with
  | nil =>
    intro p0 i hi
    have e0 : (i % 2 == 0) = true := by simp [hi]
    simp [partsOf, segsOfParts, expectedSegs, e0]
  | cons cp rest ih =>
    intro p0 i hi
    obtain ⟨c, p⟩ := cp
    have e0 : (i % 2 == 0) = true := by simp [hi]
    have e1 : ((i + 1) % 2 == 0) = false := by
      have h1 : (i + 1) % 2 = 1 := by omega
      simp [h1]
    simp only [partsOf, segsOfParts, expectedSegs]
    simp [e0, e1, ih p (i + 1 + 1) (by omega)]

lemma expectedSegs_filter_diag :
    ∀ (prs : List (List Char × List Char)) (p0 : List Char),
      (expectedSegs p0 prs).filter isDiag =
        prs.map fun cp => Segment.DiagramSource cp.1 := by
  intro prs
  induction prs with
  | nil =>
    intro p0
    by_cases h : pyStrip p0 ≠ [] <;> simp [expectedSegs, h, isDiag]
  | cons cp rest ih =>
    intro p0
    obtain ⟨c, p⟩ := cp
    by_cases h : pyStrip p0 ≠ [] <;>
      simp [expectedSegs, h, isDiag, List.filter_append, ih p]

lemma expectedSegs_filter_prose :
    ∀ (prs : List (List Char × List Char)) (p0 : List Char),
      (expectedSegs p0 prs).filter isProse =
        ((p0 :: prs.map fun cp => cp.2).filter fun p => !(pyStrip p).isEmpty).map
          Segment.Prose := by
  intro prs
  induction prs with
  | nil =>
    intro p0
    by_cases h : pyStrip p0 = [] <;>
      simp [expectedSegs, h, isProse, List.isEmpty_iff]
  | cons cp rest ih =>
    intro p0
    obtain ⟨c, p⟩ := cp
    by_cases h : pyStrip p0 = [] <;>
      simp [expectedSegs, h, isProse, List.filter_append, List.isEmpty_iff, ih p]

/-! ## Lemmas about the diagram sandbox -/

/-- One-step unfolding of executeDiagramCode. -/
lemma executeDiagramCode_eq (env : OSEnv) (code uniqueId workDir : List Char) :
    executeDiagramCode env code uniqueId workDir =
      if env.writeRaises (scriptPathOf workDir uniqueId) then none
      else
        match env.run (scriptPathOf workDir uniqueId) (rewrittenCode code uniqueId workDir) with
        | .completed rc =>
          if rc == 0 && env.existsFile (imagePathOf workDir uniqueId) then
            some (imagePathOf workDir uniqueId)
          else none
        | .timedOut => none
        | .raised => none := rfl

/-- A successful sandbox run pins down the returned path and the state
of the environment. -/
lemma executeDiagramCode_some {env : OSEnv} {code uniqueId workDir p : List Char}
    (h : executeDiagramCode env code uniqueId workDir = some p) :
    p = imagePathOf workDir uniqueId ∧
      env.existsFile (imagePathOf workDir uniqueId) = true ∧
      env.writeRaises (scriptPathOf workDir uniqueId) = false ∧
      env.run (scriptPathOf workDir uniqueId) (rewrittenCode code uniqueId workDir) =
        RunResult.completed 0 := by
  rw [executeDiagramCode_eq] at h
  by_cases hw : env.writeRaises (scriptPathOf workDir uniqueId) = true
  · rw [if_pos (by simp [hw])] at h; simp at h
  · rw [if_neg (by simpa using hw)] at h
    split at h
    · rename_i rc hr
      by_cases hc : (rc == 0 && env.existsFile (imagePathOf workDir uniqueId)) = true
      · rw [if_pos hc] at h
        simp only [Bool.and_eq_true, beq_iff_eq] at hc
        obtain ⟨rfl, he⟩ := hc
        simp only [Option.some.injEq] at h
        exact ⟨h.symm, he, by simpa using hw, hr⟩
      · rw [if_neg hc] at h; simp at h
    · simp at h
    · simp at h

/-- The image path is never the empty string. -/
lemma imagePathOf_ne_nil (workDir uniqueId : List Char) :
    imagePathOf workDir uniqueId ≠ [] := by
  rw [imagePathOf, pyJoin]
  have hh : ("diagram_".data ++ (uniqueId ++ ".png".data)).head? = some 'd' := rfl
  split
  · simp_all
  · split
    · simp
    · split <;> simp

/-! ## Claim theorems and witnesses -/

/-- C6: the identifier sanitization is idempotent, a no-op on already
sanitized strings, its output holds only alphanumerics and
underscores, and the concrete example of the spec sanitizes as
stated. -/
theorem sanitize_spec :
    (∀ s : List Char, sanitize (sanitize s) = sanitize s) ∧
    (∀ s : List Char, (∀ c ∈ s, (c.isAlphanum || c == '_') = true) → sanitize s = s) ∧
    (∀ s : List Char, ∀ c ∈ sanitize s, c.isAlphanum = true ∨ c = '_') ∧
    sanitize "My File (1).jpg_2".data = "MyFile1jpg_2".data := by
  refine ⟨?_, ?_, ?_, by decide⟩
  · intro s
    simp [sanitize, List.filter_filter]
  · intro s h
    exact List.filter_eq_self.mpr h
  · intro s c hc
    have h := List.of_mem_filter hc
    rcases Bool.or_eq_true _ _ |>.mp h with h1 | h1
    · exact Or.inl h1
    · exact Or.inr (by simpa using h1)

/-- Witness for C6: the no-op conjunct at a concrete sanitized input. -/
theorem sanitize_spec_witness :
    sanitize "abc_123".data = "abc_123".data :=
  sanitize_spec.2.1 "abc_123".data (by decide)

/-- C10: a falsy oracle response (absent, or the empty string) makes
processImageToDoc return False at once with the document untouched. -/
theorem processImageToDoc_falsy :
    ∀ (env : OSEnv) (fn wd : List Char) (doc : List DocElem),
      processImageToDoc env none fn doc wd = (false, doc) ∧
      processImageToDoc env (some []) fn doc wd = (false, doc) := by
  intro env fn wd doc
  exact ⟨rfl, rfl⟩

/-- C2: the sandbox returns an image path exactly when no exception was
raised while writing the script, the subprocess completed with exit
status zero, and the expected output file exists afterwards; a
timeout, a raised exception, a nonzero exit, or a missing output file
each yield none. -/
theorem executeDiagramCode_spec :
    ∀ (env : OSEnv) (code uniqueId workDir : List Char),
      (∀ p, executeDiagramCode env code uniqueId workDir = some p ↔
        (p = imagePathOf workDir uniqueId ∧
         env.writeRaises (scriptPathOf workDir uniqueId) = false ∧
         env.run (scriptPathOf workDir uniqueId) (rewrittenCode code uniqueId workDir) =
           RunResult.completed 0 ∧
         env.existsFile (imagePathOf workDir uniqueId) = true)) ∧
      (env.run (scriptPathOf workDir uniqueId) (rewrittenCode code uniqueId workDir) =
          RunResult.timedOut →
        executeDiagramCode env code uniqueId workDir = none) ∧
      (env.run (scriptPathOf workDir uniqueId) (rewrittenCode code uniqueId workDir) =
          RunResult.raised →
        executeDiagramCode env code uniqueId workDir = none) ∧
      (∀ rc : Int,
        env.run (scriptPathOf workDir uniqueId) (rewrittenCode code uniqueId workDir) =
          RunResult.completed rc → rc ≠ 0 →
        executeDiagramCode env code uniqueId workDir = none) ∧
      (env.existsFile (imagePathOf workDir uniqueId) = false →
        executeDiagramCode env code uniqueId workDir = none) := by
  intro env code uniqueId workDir
  refine ⟨?_, ?_, ?_, ?_, ?_⟩
  · intro p
    constructor
    · intro h
      obtain ⟨h1, h2, h3, h4⟩ := executeDiagramCode_some h
      exact ⟨h1, h3, h4, h2⟩
    · rintro ⟨rfl, h2, h3, h4⟩
      rw [executeDiagramCode_eq, if_neg (by simp [h2]), h3]
      simp [h4]
  · intro h
    rw [executeDiagramCode_eq]
    split
    · rfl
    · rw [h]
  · intro h
    rw [executeDiagramCode_eq]
    split
    · rfl
    · rw [h]
  · intro rc h hrc
    rw [executeDiagramCode_eq]
    split
    · rfl
    · rw [h]
      simp [hrc]
  · intro h
    rw [executeDiagramCode_eq]
    split
    · rfl
    · split
      · rename_i rc
        simp [h]
      · rfl
      · rfl

/-- Witness for C2: a fully successful run returns the image path; a
zero exit without output, and a stale file with a nonzero exit, both
return none. -/
theorem executeDiagramCode_spec_witness :
    executeDiagramCode envAllOk "plot".data "u1".data "/w".data =
      some "/w/diagram_u1.png".data ∧
    executeDiagramCode envNoFile "plot".data "u1".data "/w".data = none ∧
    executeDiagramCode envStale "plot".data "u1".data "/w".data = none :=
  ⟨((executeDiagramCode_spec envAllOk "plot".data "u1".data "/w".data).1 _).mpr
      ⟨by decide, rfl, rfl, rfl⟩,
   (executeDiagramCode_spec envNoFile "plot".data "u1".data "/w".data).2.2.2.2 rfl,
   (executeDiagramCode_spec envStale "plot".data "u1".data "/w".data).2.2.2.1 1 rfl
     (by decide)⟩

/-! ## Lemmas for the filename rewrite: single-character replacement -/

lemma splitFirst_single_none {c : Char} :
    ∀ {s : List Char}, splitFirst [c] s = none → c ∉ s := by
  intro s
  induction s with
  | nil => intro _; simp
  | cons x xs ih =>
    intro h
    rw [splitFirst] at h
    by_cases hp : isPre [c] (x :: xs) = true
    · rw [if_pos hp] at h; simp at h
    · rw [if_neg hp] at h
      simp only [isPre, Bool.and_eq_true, beq_iff_eq] at hp
      have hx : c ≠ x := by
        intro he; exact hp ⟨he, trivial⟩
      cases hr : splitFirst [c] xs with
      | none =>
        intro hmem
        rcases List.mem_cons.mp hmem with h1 | h1
        · exact hx h1
        · exact ih hr h1
      | some ba => rw [hr] at h; simp at h

lemma splitFirst_single_before {c : Char} :
    ∀ {s b a : List Char}, splitFirst [c] s = some (b, a) → c ∉ b := by
  intro s
  induction s with
  | nil => intro b a h; simp [splitFirst] at h
  | cons x xs ih =>
    intro b a h
    rw [splitFirst] at h
    by_cases hp : isPre [c] (x :: xs) = true
    · rw [if_pos hp] at h
      simp only [Option.some.injEq, Prod.mk.injEq] at h
      obtain ⟨rfl, rfl⟩ := h
      simp
    · rw [if_neg hp] at h
      cases hr : splitFirst [c] xs with
      | none => rw [hr] at h; simp at h
      | some ba =>
        obtain ⟨b', a'⟩ := ba
        rw [hr] at h
        simp only [Option.some.injEq, Prod.mk.injEq] at h
        obtain ⟨rfl, rfl⟩ := h
        simp only [isPre, Bool.and_eq_true, beq_iff_eq] at hp
        have hx : c ≠ x := by
          intro he; exact hp ⟨he, trivial⟩
        intro hmem
        rcases List.mem_cons.mp hmem with h1 | h1
        · exact hx h1
        · exact ih hr h1

lemma replaceAllF_single (c d : Char) :
    ∀ (fuel : Nat) (s : List Char), s.length < fuel →
      replaceAllF fuel [c] [d] s = s.map fun x => if x = c then d else x := by
  intro fuel
  induction fuel with
  | zero => intro s h; omega
  | succ f ih =>
    intro s hlen
    rw [replaceAllF]
    cases hs : splitFirst [c] s with
    | none =>
      have hnot := splitFirst_single_none hs
      symm
      have h1 : (s.map fun x => if x = c then d else x) = s.map id :=
        List.map_congr_left (by
          intro x hx
          have hxc : x ≠ c := fun he => hnot (he ▸ hx)
          simp [hxc])
      rw [h1, List.map_id]
    | some ba =>
      obtain ⟨b, a⟩ := ba
      have heq := splitFirst_eq_append hs
      have hbnot := splitFirst_single_before hs
      have hlen2 : a.length < f := by
        rw [heq] at hlen
        simp only [List.length_append, List.length_cons, List.length_nil] at hlen
        omega
      have hbmap : (b.map fun x => if x = c then d else x) = b := by
        have h1 : (b.map fun x => if x = c then d else x) = b.map id :=
          List.map_congr_left (by
            intro x hx
            have hxc : x ≠ c := fun he => hbnot (he ▸ hx)
            simp [hxc])
        rw [h1, List.map_id]
      rw [heq]
      simp only [List.map_append, List.map_cons, List.map_nil]
      rw [hbmap, ih a hlen2]
      simp

/-- The escaped image path is the image path with every backslash
replaced by a forward slash, characterwise. -/
lemma escapedPathOf_eq_map (workDir uniqueId : List Char) :
    escapedPathOf workDir uniqueId =
      (imagePathOf workDir uniqueId).map fun x => if x = '\\' then '/' else x := by
  have hc : "\\".data = ['\\'] := rfl
  have hd : "/".data = ['/'] := rfl
  rw [escapedPathOf, replaceAll, hc, hd]
  exact replaceAllF_single '\\' '/' _ _ (by omega)

/-- The three shapes of joining the work directory with the image file
name, by the branches of os.path.join. -/
lemma imagePathOf_cases (workDir uniqueId : List Char) :
    imagePathOf workDir uniqueId =
      if workDir = [] then "diagram_".data ++ uniqueId ++ ".png".data
      else if workDir.getLast? = some '/' then
        workDir ++ ("diagram_".data ++ uniqueId ++ ".png".data)
      else workDir ++ '/' :: ("diagram_".data ++ uniqueId ++ ".png".data) := by
  have hh : ("diagram_".data ++ uniqueId ++ ".png".data).head? = some 'd' := by
    cases uniqueId <;> rfl
  rw [imagePathOf, pyJoin, if_neg (by rw [hh]; simp)]

/-- Escaping fixes a sanitized identifier pointwise. -/
lemma sanitized_map_esc {u : List Char}
    (h : ∀ c ∈ u, (c.isAlphanum || c == '_') = true) :
    (u.map fun x => if x = '\\' then '/' else x) = u := by
  have h1 : (u.map fun x => if x = '\\' then '/' else x) = u.map id :=
    List.map_congr_left (by
      intro a ha
      have ha2 := h a ha
      by_cases hb : a = '\\'
      · rw [hb] at ha2; exact absurd ha2 (by decide)
      · simp [hb])
  rw [h1, List.map_id]

lemma append_mid_cancel {pre suf u1 u2 : List Char}
    (h : pre ++ u1 ++ suf = pre ++ u2 ++ suf) : u1 = u2 :=
  List.append_cancel_left (List.append_cancel_right h)

/-- C7: before execution the sandbox rewrites the hardcoded output
filename to the forward-slash-normalized image path of the artifact
inside the working directory, then applies the fixed rewrite table
covering the axis-limit shorthands of the handles ax, ax_linear and
ax_log and the LaTeX implies macro; and the escaped path determines the
sanitized artifact identifier uniquely within one working directory. -/
theorem rewrittenCode_spec :
    (∀ code uniqueId workDir : List Char,
      rewrittenCode code uniqueId workDir =
        applyTable rewriteTable
          (replaceAll "generated_diagram.png".data (escapedPathOf workDir uniqueId)
            code)) ∧
    escapedPathOf "C:\\tmp\\wd".data "pic0".data = "C:/tmp/wd/diagram_pic0.png".data ∧
    rewrittenCode
        "ax.xlim(0,1)\nax_log.ylim(2)\nplt.savefig(generated_diagram.png) # \\implies".data
        "pic0".data "/w".data =
      "ax.set_xlim(0,1)\nax_log.set_ylim(2)\nplt.savefig(/w/diagram_pic0.png) # \\Rightarrow".data ∧
    (∀ workDir u1 u2 : List Char,
      (∀ c ∈ u1, (c.isAlphanum || c == '_') = true) →
      (∀ c ∈ u2, (c.isAlphanum || c == '_') = true) →
      escapedPathOf workDir u1 = escapedPathOf workDir u2 → u1 = u2) := by
  refine ⟨?_, by decide, by decide, ?_⟩
  · intro code uniqueId workDir
    rfl
  · intro wd u1 u2 h1 h2 heq
    rw [escapedPathOf_eq_map, escapedPathOf_eq_map, imagePathOf_cases,
      imagePathOf_cases] at heq
    have hpre : ("diagram_".data.map fun x => if x = '\\' then '/' else x) =
        "diagram_".data := by decide
    have hsuf : (".png".data.map fun x => if x = '\\' then '/' else x) =
        ".png".data := by decide
    by_cases hwd : wd = []
    · rw [if_pos hwd, if_pos hwd] at heq
      simp only [List.map_append, hpre, hsuf, sanitized_map_esc h1,
        sanitized_map_esc h2] at heq
      exact append_mid_cancel heq
    · rw [if_neg hwd, if_neg hwd] at heq
      by_cases hlast : wd.getLast? = some '/'
      · rw [if_pos hlast, if_pos hlast] at heq
        simp only [List.map_append, hpre, hsuf, sanitized_map_esc h1,
          sanitized_map_esc h2] at heq
        exact append_mid_cancel (List.append_cancel_left heq)
      · rw [if_neg hlast, if_neg hlast] at heq
        simp only [List.map_append, List.map_cons, hpre, hsuf, ite_self,
          sanitized_map_esc h1, sanitized_map_esc h2] at heq
        have h3 := List.append_cancel_left heq
        simp only [List.cons.injEq, true_and] at h3
        exact append_mid_cancel h3

/-- Witness for C7: the injectivity conjunct at concrete inputs. -/
theorem rewrittenCode_spec_witness : "ab_1".data = "ab_1".data :=
  rewrittenCode_spec.2.2.2 "/w".data "ab_1".data "ab_1".data
    (by decide) (by decide) rfl

/-! ## Lemmas for model selection -/

lemma getLast?_cons {α : Type} (a : α) (l : List α) :
    (a :: l).getLast? =
      some (match l.getLast? with | some y => y | none => a) := by
  induction l generalizing a with
  | nil => rfl
  | cons b l' ih =>
    rw [List.getLast?_cons_cons, ih b]

/-- The scan of getGeminiModelLoop realizes the spec preference order:
the first generation-supporting flash identifier; failing that, the
last generation-supporting pro identifier; failing that, the carried
model name. -/
lemma getGeminiModelLoop_spec :
    ∀ (models : List ModelInfo) (m : List Char),
      getGeminiModelLoop models m = specScan models m := by
  intro models
  induction models with
  | nil => intro m; rfl
  | cons mi rest ih =>
    intro m
    by_cases hg : "generateContent".data ∈ mi.methods
    · have hg' : genOK mi = true := by simp [genOK, hg]
      have e1 : (mi :: rest).filter genOK = mi :: rest.filter genOK :=
        List.filter_cons_of_pos hg'
      by_cases hf : containsSub "flash".data (stripName mi) = true
      · have hf' : isFlashB mi = true := hf
        have e2 : (mi :: rest.filter genOK).find? isFlashB = some mi :=
          List.find?_cons_of_pos _ hf'
        simp only [getGeminiModelLoop]
        rw [if_pos hg, if_pos hf]
        simp only [specScan]
        rw [e1, e2]
      · have hf' : isFlashB mi = false := by
          simpa [isFlashB] using hf
        have e2 : (mi :: rest.filter genOK).find? isFlashB =
            (rest.filter genOK).find? isFlashB :=
          List.find?_cons_of_neg _ (by simp [hf'])
        by_cases hp : containsSub "pro".data (stripName mi) = true
        · have hp' : isProB mi = true := hp
          have e3 : (mi :: rest.filter genOK).filter isProB =
              mi :: (rest.filter genOK).filter isProB :=
            List.filter_cons_of_pos hp'
          simp only [getGeminiModelLoop]
          rw [if_pos hg, if_neg hf, if_pos hp, ih (stripName mi)]
          simp only [specScan]
          rw [e1, e2, e3]
          cases hfind : (rest.filter genOK).find? isFlashB with
          | some x => rfl
          | none =>
            rw [getLast?_cons]
            cases hL : ((rest.filter genOK).filter isProB).getLast? with
            | some y => rfl
            | none => rfl
        · have hp' : isProB mi = false := by
            simpa [isProB] using hp
          have e3 : (mi :: rest.filter genOK).filter isProB =
              (rest.filter genOK).filter isProB :=
            List.filter_cons_of_neg (by simp [hp'])
          simp only [getGeminiModelLoop]
          rw [if_pos hg, if_neg hf, if_neg hp, ih m]
          simp only [specScan]
          rw [e1, e2, e3]
    · have hg' : genOK mi = false := by
        simpa [genOK] using hg
      have e1 : (mi :: rest).filter genOK = rest.filter genOK :=
        List.filter_cons_of_neg (by simp [hg'])
      simp only [getGeminiModelLoop]
      rw [if_neg hg, ih m]
      simp only [specScan]
      rw [e1]

/-- C4: model selection follows the preference order of the spec (first
generation-supporting flash, short-circuiting; else last
generation-supporting pro; else the hardcoded default, also on a
failed catalog call), and the concrete two-entry catalog of the spec
selects y-flash. -/
theorem getGeminiModel_spec :
    (∀ res : CatalogResult, getGeminiModel res = specSelect res) ∧
    getGeminiModel (.ok 200
      [⟨"models/x-pro".data, ["generateContent".data]⟩,
       ⟨"models/y-flash".data, ["generateContent".data]⟩]) = "y-flash".data := by
  constructor
  · intro res
    match res with
    | .err => rfl
    | .ok status models =>
      by_cases hs : (status == 200) = true
      · simp only [getGeminiModel, specSelect, hs, if_true]
        exact getGeminiModelLoop_spec models defaultModel
      · simp only [getGeminiModel, specSelect, hs, if_false, Bool.false_eq_true]
  · decide

/-! ## C5: the oracle response boundary -/

/-- C5 (amended): getGeminiResponse yields a value exactly for a
200-status response whose body carries a candidate text, and yields
none on a transport error and on every non-200 status. -/
theorem getGeminiResponse_spec :
    (∀ (o : HttpOutcome) (v : Json), getGeminiResponse o = some v ↔
      ∃ body, o = HttpOutcome.resp 200 body ∧ HasCandidateText body v) ∧
    getGeminiResponse .transportErr = none ∧
    (∀ (st : Nat) (body : Json), st ≠ 200 →
      getGeminiResponse (.resp st body) = none) := by
  refine ⟨?_, rfl, ?_⟩
  · intro o v
    constructor
    · intro h
      cases o with
      | transportErr => simp [getGeminiResponse] at h
      | resp st body =>
        simp only [getGeminiResponse] at h
        by_cases hst : (st == 200) = true
        · have hst' : st = 200 := by simpa using hst
          subst hst'
          rw [if_pos hst] at h
          split at h
          · rename_i c0 rest hj
            simp only [Option.bind_eq_some] at h
            obtain ⟨content, h2, parts, h3, p0, h4, h5⟩ := h
            exact ⟨body, rfl, c0, rest, content, parts, p0, hj, h2, h3, h4, h5⟩
          · simp at h
        · have hst0 : (st == 200) = false := by simpa using hst
          rw [hst0] at h
          simp at h
    · rintro ⟨body, rfl, c0, rest, content, parts, p0, h1, h2, h3, h4, h5⟩
      simp [getGeminiResponse, h1, h2, h3, h4, h5]
  · intro st body hst
    have hst0 : (st == 200) = false := by simpa using hst
    simp [getGeminiResponse, hst0]

/-- Witness for C5: the amended characterization at concrete inputs. -/
theorem getGeminiResponse_spec_witness :
    getGeminiResponse (.resp 200 sampleBody) = some (Json.str "hi".data) ∧
    getGeminiResponse (.resp 500 sampleBody) = none :=
  ⟨(getGeminiResponse_spec.1 (.resp 200 sampleBody) (Json.str "hi".data)).mpr
      ⟨sampleBody, rfl, _, _, _, _, _, rfl, rfl, rfl, rfl, rfl⟩,
   getGeminiResponse_spec.2.2 500 sampleBody (by decide)⟩

/-- Counterexample for C5 as stated: a 201 status is 2xx and its body
carries a candidate text, yet the code returns none, because it tests
for status 200 exactly. -/
theorem getGeminiResponse_counterexample :
    getGeminiResponse (.resp 201 sampleBody) = none ∧
    HasCandidateText sampleBody (Json.str "hi".data) ∧
    200 ≤ 201 ∧ 201 < 300 :=
  ⟨rfl, ⟨_, _, _, _, _, rfl, rfl, rfl, rfl, rfl⟩, by omega, by omega⟩

/-! ## Lemmas about the assembler loop -/

/-- The assembler loop output is the concatenation of one chunk per
part. -/
lemma processParts_eq_join :
    ∀ (env : OSEnv) (fn wd : List Char) (c i : Nat) (ps : List (List Char)),
      processParts env fn wd c i ps = (chunksOf env fn wd c i ps).flatten := by
  intro env fn wd c i ps
  induction ps generalizing c i with
  | nil => rfl
  | cons part rest ih =>
    by_cases hi : (i % 2 == 0) = true
    · simp [processParts, chunksOf, hi, proseChunk, ih]
    · simp [processParts, chunksOf, hi, diagChunk, ih]

/-- The chunk at an odd position is the diagram chunk for the counter
value reached there. -/
lemma chunksOf_get_odd (env : OSEnv) (fn wd : List Char) :
    ∀ (ps : List (List Char)) (c i k : Nat) (part : List Char),
      ps.get? k = some part → (i + k) % 2 = 1 →
      (chunksOf env fn wd c i ps).get? k =
        some (diagChunk env fn wd (c + (i % 2 + k) / 2) part) := by
  intro ps
  induction ps with
  | nil => intro c i k part h _; simp at h
  | cons p rest ih =>
    intro c i k part h hpar
    cases k with
    | zero =>
      simp only [List.get?_cons_zero, Option.some.injEq] at h
      subst h
      have hi : i % 2 = 1 := by omega
      have hi0 : (i % 2 == 0) = false := by simp [hi]
      simp only [chunksOf, hi0, Bool.false_eq_true, if_false, List.get?_cons_zero]
      rw [show c + (i % 2 + 0) / 2 = c from by omega]
    | succ k2 =>
      simp only [List.get?_cons_succ] at h
      by_cases hi : (i % 2 == 0) = true
      · have hi2 : i % 2 = 0 := by simpa using hi
        simp only [chunksOf, hi, if_true, List.get?_cons_succ]
        have harith : c + ((i + 1) % 2 + k2) / 2 = c + (i % 2 + (k2 + 1)) / 2 := by
          rw [show (i + 1) % 2 = 1 from by omega, hi2]
          omega
        rw [ih c (i + 1) k2 part h (by omega), harith]
      · have hi2 : i % 2 = 1 := by
          have hne : i % 2 ≠ 0 := by simpa using hi
          omega
        have hi0 : (i % 2 == 0) = false := by simp [hi2]
        simp only [chunksOf, hi0, Bool.false_eq_true, if_false, List.get?_cons_succ]
        have harith : c + 1 + ((i + 1) % 2 + k2) / 2 = c + (i % 2 + (k2 + 1)) / 2 := by
          rw [show (i + 1) % 2 = 0 from by omega, hi2]
          omega
        rw [ih (c + 1) (i + 1) k2 part h (by omega), harith]

/-- The chunk at an even position is the prose chunk of the part. -/
lemma chunksOf_get_even (env : OSEnv) (fn wd : List Char) :
    ∀ (ps : List (List Char)) (c i k : Nat) (part : List Char),
      ps.get? k = some part → (i + k) % 2 = 0 →
      (chunksOf env fn wd c i ps).get? k = some (proseChunk part) := by
  intro ps
  induction ps with
  | nil => intro c i k part h _; simp at h
  | cons p rest ih =>
    intro c i k part h hpar
    cases k with
    | zero =>
      simp only [List.get?_cons_zero, Option.some.injEq] at h
      subst h
      have hi : i % 2 = 0 := by omega
      have hi0 : (i % 2 == 0) = true := by simp [hi]
      simp only [chunksOf, hi0, if_true, List.get?_cons_zero]
    | succ k2 =>
      simp only [List.get?_cons_succ] at h
      by_cases hi : (i % 2 == 0) = true
      · simp only [chunksOf, hi, if_true, List.get?_cons_succ]
        exact ih c (i + 1) k2 part h (by
          have : i % 2 = 0 := by simpa using hi
          omega)
      · have hi2 : i % 2 = 1 := by
          have hne : i % 2 ≠ 0 := by simpa using hi
          omega
        have hi0 : (i % 2 == 0) = false := by simp [hi2]
        simp only [chunksOf, hi0, Bool.false_eq_true, if_false, List.get?_cons_succ]
        exact ih (c + 1) (i + 1) k2 part h (by omega)

/-- Every diagram chunk is a single element: a picture when the render
succeeded and embedding works, the image-error placeholder when the
render succeeded and embedding raises, the failure placeholder when
the render returned no image. -/
lemma diagChunk_cases (env : OSEnv) (fn wd : List Char) (c : Nat) (part : List Char) :
    (diagChunk env fn wd c part).length = 1 ∧
    ((∃ p, executeDiagramCode env (codeBlockOf part) (uniqueIdOf fn c) wd = some p ∧
        env.embedOk p = true ∧ diagChunk env fn wd c part = [DocElem.Picture p 5]) ∨
     (∃ p, executeDiagramCode env (codeBlockOf part) (uniqueIdOf fn c) wd = some p ∧
        env.embedOk p = false ∧
        diagChunk env fn wd c part = [DocElem.Para imageErrorText]) ∨
     (executeDiagramCode env (codeBlockOf part) (uniqueIdOf fn c) wd = none ∧
        diagChunk env fn wd c part = [DocElem.Para failedText])) := by
  cases hx : executeDiagramCode env (codeBlockOf part) (uniqueIdOf fn c) wd with
  | none =>
    exact ⟨by simp [diagChunk, hx], Or.inr (Or.inr ⟨rfl, by simp [diagChunk, hx]⟩)⟩
  | some p =>
    obtain ⟨hp1, hp2, _, _⟩ := executeDiagramCode_some hx
    have hpne : p ≠ [] := by
      rw [hp1]; exact imagePathOf_ne_nil wd (uniqueIdOf fn c)
    have hex : env.existsFile p = true := by rw [hp1]; exact hp2
    by_cases he : env.embedOk p = true
    · exact ⟨by simp [diagChunk, hx, hpne, hex, he],
        Or.inl ⟨p, rfl, he, by simp [diagChunk, hx, hpne, hex, he]⟩⟩
    · have he2 : env.embedOk p = false := by simpa using he
      exact ⟨by simp [diagChunk, hx, hpne, hex, he2],
        Or.inr (Or.inl ⟨p, rfl, he2, by simp [diagChunk, hx, hpne, hex, he2]⟩)⟩

/-- The diagram segments of the segmentation are exactly the parts at
odd positions, in order. -/
lemma segsOfParts_filter_diag :
    ∀ (ps : List (List Char)) (i : Nat),
      (segsOfParts i ps).filter isDiag = (oddParts i ps).map Segment.DiagramSource := by
  intro ps
  induction ps with
  | nil => intro i; rfl
  | cons p rest ih =>
    intro i
    by_cases hi : (i % 2 == 0) = true
    · simp only [segsOfParts, oddParts, hi, if_true, List.filter_append, ih (i + 1)]
      split <;> simp [isDiag]
    · simp [segsOfParts, oddParts, hi, List.filter_cons, isDiag, ih (i + 1)]

/-- Inversion of a successful assembly run. -/
lemma processImageToDoc_true {env : OSEnv} {r : Option (List Char)}
    {fn wd : List Char} {doc d2 : List DocElem}
    (h : processImageToDoc env r fn doc wd = (true, d2)) :
    ∃ t, r = some t ∧ t ≠ [] ∧
      d2 = doc ++ [DocElem.Heading ("Source: ".data ++ fn) 1] ++
        processParts env fn wd 0 0 (splitDiagrams t) ++ [DocElem.PageBreak] := by
  cases r with
  | none => simp [processImageToDoc] at h
  | some t =>
    by_cases ht : t = []
    · subst ht; simp [processImageToDoc] at h
    · refine ⟨t, rfl, ht, ?_⟩
      simp only [processImageToDoc, if_neg ht, Prod.mk.injEq] at h
      exact h.2.symm

/-- C1: on every successful assembly run the document delta decomposes
into the heading, one chunk per part and the page break, and every
diagram part (equivalently, every DiagramSource segment of the
segmentation, which the third conjunct identifies with the parts at odd
positions) contributes exactly one element: an embedded picture when
the render succeeded and embedding works, the image-error placeholder
when the render succeeded and embedding raises, and the failure
placeholder when the render returned no image. -/
theorem processImageToDoc_diagram_invariant :
    ∀ (env : OSEnv) (r : Option (List Char)) (fn wd : List Char)
      (doc d2 : List DocElem),
      processImageToDoc env r fn doc wd = (true, d2) →
      ∃ t, r = some t ∧
        d2 = doc ++ [DocElem.Heading ("Source: ".data ++ fn) 1] ++
          (chunksOf env fn wd 0 0 (splitDiagrams t)).flatten ++
          [DocElem.PageBreak] ∧
        (segment t).filter isDiag =
          (oddParts 0 (splitDiagrams t)).map Segment.DiagramSource ∧
        ∀ k part, (splitDiagrams t).get? k = some part → k % 2 = 1 →
          (chunksOf env fn wd 0 0 (splitDiagrams t)).get? k =
            some (diagChunk env fn wd (k / 2) part) ∧
          (diagChunk env fn wd (k / 2) part).length = 1 ∧
          ((∃ p, executeDiagramCode env (codeBlockOf part) (uniqueIdOf fn (k / 2)) wd
              = some p ∧ env.embedOk p = true ∧
              diagChunk env fn wd (k / 2) part = [DocElem.Picture p 5]) ∨
           (∃ p, executeDiagramCode env (codeBlockOf part) (uniqueIdOf fn (k / 2)) wd
              = some p ∧ env.embedOk p = false ∧
              diagChunk env fn wd (k / 2) part = [DocElem.Para imageErrorText]) ∨
           (executeDiagramCode env (codeBlockOf part) (uniqueIdOf fn (k / 2)) wd
              = none ∧
              diagChunk env fn wd (k / 2) part = [DocElem.Para failedText])) := by
  intro env r fn wd doc d2 h
  obtain ⟨t, rfl, ht, hd⟩ := processImageToDoc_true h
  refine ⟨t, rfl, by rw [hd, processParts_eq_join], ?_, ?_⟩
  · exact segsOfParts_filter_diag (splitDiagrams t) 0
  · intro k part hk hodd
    have hc := chunksOf_get_odd env fn wd (splitDiagrams t) 0 0 k part hk
      (by omega)
    rw [show 0 + (0 % 2 + k) / 2 = k / 2 from by omega] at hc
    obtain ⟨hl, hcases⟩ := diagChunk_cases env fn wd (k / 2) part
    exact ⟨hc, hl, hcases⟩

/-- Witness for C1: one diagram-only response in the all-success
environment yields the heading, one picture and the page break. -/
theorem processImageToDoc_diagram_invariant_witness :
    ∃ t, (some "[[DIAGRAM_CODE_START]]x[[DIAGRAM_CODE_END]]".data :
        Option (List Char)) = some t ∧
      ([DocElem.Heading "Source: f".data 1,
        DocElem.Picture "w/diagram_f_0.png".data 5, DocElem.PageBreak] :
          List DocElem) =
        [] ++ [DocElem.Heading ("Source: ".data ++ "f".data) 1] ++
          (chunksOf envAllOk "f".data "w".data 0 0 (splitDiagrams t)).flatten ++
          [DocElem.PageBreak] := by
  obtain ⟨t, h1, h2, _, _⟩ := processImageToDoc_diagram_invariant envAllOk
    (some "[[DIAGRAM_CODE_START]]x[[DIAGRAM_CODE_END]]".data) "f".data "w".data
    []
    [DocElem.Heading "Source: f".data 1,
      DocElem.Picture "w/diagram_f_0.png".data 5, DocElem.PageBreak]
    (by decide)
  injection h1 with h1e
  subst h1e
  exact ⟨_, rfl, h2⟩

/-- C3: on every well-formed interleaving of marker-free chunks, the
regex split recovers the parts, the segmentation equals the expected
segment list (order preserved, whitespace-only prose dropped, diagram
spans kept), the diagram segments are exactly the codes of the pairs
in order, their number equals the number of marker pairs, and the
prose segments are the non-whitespace prose chunks in order. -/
theorem segmentation_roundtrip :
    ∀ (p0 : List Char) (prs : List (List Char × List Char)),
      chunksOK p0 prs = true →
      splitDiagrams (interleave p0 prs) = partsOf p0 prs ∧
      segment (interleave p0 prs) = expectedSegs p0 prs ∧
      (segment (interleave p0 prs)).filter isDiag =
        prs.map (fun cp => Segment.DiagramSource cp.1) ∧
      ((segment (interleave p0 prs)).filter isDiag).length = prs.length ∧
      (segment (interleave p0 prs)).filter isProse =
        ((p0 :: prs.map fun cp => cp.2).filter fun p => !(pyStrip p).isEmpty).map
          Segment.Prose := by
  intro p0 prs hok
  have h1 := splitDiagrams_roundtrip hok
  have h2 : segment (interleave p0 prs) = expectedSegs p0 prs := by
    rw [segment, h1]
    exact segsOfParts_partsOf prs p0 0 rfl
  refine ⟨h1, h2, ?_, ?_, ?_⟩
  · rw [h2]; exact expectedSegs_filter_diag prs p0
  · rw [h2, expectedSegs_filter_diag prs p0]; simp
  · rw [h2]; exact expectedSegs_filter_prose prs p0

/-- Witness for C3: a prose-diagram-prose response round-trips. -/
theorem segmentation_roundtrip_witness :
    splitDiagrams (interleave "Hello ".data [("c1".data, " World".data)]) =
      ["Hello ".data, "c1".data, " World".data] ∧
    segment (interleave "Hello ".data [("c1".data, " World".data)]) =
      [Segment.Prose "Hello ".data, Segment.DiagramSource "c1".data,
       Segment.Prose " World".data] := by
  have h := segmentation_roundtrip "Hello ".data [("c1".data, " World".data)]
    (by decide)
  exact ⟨by rw [h.1]; rfl, by rw [h.2.1]; decide⟩

/-- C8 (amended): on every successful assembly run, every prose part
with non-empty trimmed text contributes exactly the paragraph holding
its trimmed text, character for character. -/
theorem prose_trimmed_verbatim :
    ∀ (env : OSEnv) (r : Option (List Char)) (fn wd : List Char)
      (doc d2 : List DocElem),
      processImageToDoc env r fn doc wd = (true, d2) →
      ∃ t, r = some t ∧
        d2 = doc ++ [DocElem.Heading ("Source: ".data ++ fn) 1] ++
          (chunksOf env fn wd 0 0 (splitDiagrams t)).flatten ++
          [DocElem.PageBreak] ∧
        ∀ k part, (splitDiagrams t).get? k = some part → k % 2 = 0 →
          pyStrip part ≠ [] →
          (chunksOf env fn wd 0 0 (splitDiagrams t)).get? k =
            some [DocElem.Para (pyStrip part)] := by
  intro env r fn wd doc d2 h
  obtain ⟨t, rfl, ht, hd⟩ := processImageToDoc_true h
  refine ⟨t, rfl, by rw [hd, processParts_eq_join], ?_⟩
  intro k part hk heven hstrip
  have hc := chunksOf_get_even env fn wd (splitDiagrams t) 0 0 k part hk
    (by omega)
  rw [hc, proseChunk, if_pos hstrip]

/-- Witness for C8: a response with surrounding whitespace contributes
the trimmed paragraph. -/
theorem prose_trimmed_verbatim_witness :
    ∃ t, (some " hello ".data : Option (List Char)) = some t ∧
      ([DocElem.Heading "Source: f".data 1, DocElem.Para "hello".data,
        DocElem.PageBreak] : List DocElem) =
        [] ++ [DocElem.Heading ("Source: ".data ++ "f".data) 1] ++
          (chunksOf envAllOk "f".data "w".data 0 0 (splitDiagrams t)).flatten ++
          [DocElem.PageBreak] := by
  obtain ⟨t, h1, h2, _⟩ := prose_trimmed_verbatim envAllOk
    (some " hello ".data) "f".data "w".data []
    [DocElem.Heading "Source: f".data 1, DocElem.Para "hello".data,
      DocElem.PageBreak]
    (by decide)
  injection h1 with h1e
  subst h1e
  exact ⟨_, rfl, h2⟩

/-- Counterexample for C8 as stated: the prose segment of a response
with surrounding whitespace carries the raw span, but the appended
paragraph holds the trimmed text, which differs from the segment text
character for character. -/
theorem prose_verbatim_counterexample :
    segment " hello ".data = [Segment.Prose " hello ".data] ∧
    (processImageToDoc envAllOk (some " hello ".data) "f".data [] "w".data).2 =
      [DocElem.Heading "Source: f".data 1, DocElem.Para "hello".data,
       DocElem.PageBreak] ∧
    "hello".data ≠ " hello ".data := by decide

/-- C9 (amended): a response with zero diagram markers assembles to the
heading, at most one paragraph (holding the whole trimmed response,
present exactly when the trimmed response is non-empty) and the page
break: exactly one paragraph for a non-whitespace response, and no
pictures, regardless of how many lines the response has. -/
theorem processImageToDoc_noMarkers :
    ∀ (env : OSEnv) (fn wd t : List Char) (doc : List DocElem),
      splitFirst startM t = none → t ≠ [] →
      processImageToDoc env (some t) fn doc wd =
        (true, doc ++ [DocElem.Heading ("Source: ".data ++ fn) 1] ++
          (if pyStrip t ≠ [] then [DocElem.Para (pyStrip t)] else []) ++
          [DocElem.PageBreak]) ∧
      countPara (processImageToDoc env (some t) fn doc wd).2 =
        countPara doc + (if pyStrip t ≠ [] then 1 else 0) ∧
      countPic (processImageToDoc env (some t) fn doc wd).2 = countPic doc := by
  intro env fn wd t doc hnm ht
  have hsplit := splitDiagrams_noMarker hnm
  have hmain : processImageToDoc env (some t) fn doc wd =
      (true, doc ++ [DocElem.Heading ("Source: ".data ++ fn) 1] ++
        (if pyStrip t ≠ [] then [DocElem.Para (pyStrip t)] else []) ++
        [DocElem.PageBreak]) := by
    simp only [processImageToDoc, if_neg ht, hsplit, Prod.mk.injEq, true_and]
    simp [processParts]
  refine ⟨hmain, ?_, ?_⟩
  · rw [hmain]
    by_cases hstrip : pyStrip t ≠ [] <;>
      simp [hstrip, countPara, List.filter_append]
  · rw [hmain]
    by_cases hstrip : pyStrip t ≠ [] <;>
      simp [hstrip, countPic, List.filter_append]

/-- Witness for C9: a marker-free response gives one paragraph and no
pictures. -/
theorem processImageToDoc_noMarkers_witness :
    countPara (processImageToDoc envAllOk (some "Hi".data) "f".data []
      "w".data).2 = 1 ∧
    countPic (processImageToDoc envAllOk (some "Hi".data) "f".data []
      "w".data).2 = 0 := by
  have h := processImageToDoc_noMarkers envAllOk "f".data "w".data "Hi".data []
    (by decide) (by decide)
  refine ⟨?_, ?_⟩
  · rw [h.2.1]; decide
  · rw [h.2.2]; decide

/-- Counterexample for C9 as stated: the marker-free response of two
non-empty lines separated by a blank line assembles to one single
paragraph, not one paragraph per non-empty input line. -/
theorem processImageToDoc_noMarkers_counterexample :
    countPara (processImageToDoc envAllOk (some "a\n\nb".data) "f".data []
      "w".data).2 = 1 ∧
    ((linesOf "a\n\nb".data).filter fun l => decide (l ≠ [])).length = 2 := by
  decide

end OCR
